import Mathlib

/-!
Verification development for the fluxdb shard-injection and KV-store layer.

The Go source is shallowly embedded: Go byte strings (`[]byte` and `string`,
which in Go is a byte sequence) become `List Nat`; Go maps `map[string][]byte`
become association lists updated in place; fallible functions return `Except`;
the KV backend and the staged-object store are modelled at their interface
boundary (sorted row list, decoded record stream, operation trace).
-/

/-- Go byte strings (both `[]byte` and `string`). -/
abbrev GoStr := List Nat

/-- Physical table prefix bytes, from the `TblPrefixRows = 0x00`,
`TblPrefixIndex = 0x01`, `TblPrefixLast = 0x03` constants. -/
def TblRows : Nat := 0x00

def TblIndex : Nat := 0x01

def TblLast : Nat := 0x03

/-- Embeds `packKey(table byte, key string) []byte`:
`append([]byte{table}, []byte(key)...)`. -/
def packKey (table : Nat) (key : GoStr) : GoStr := table :: key

/-- Embeds `unpackKey(key []byte) (byte, string)`: the source returns
`key[0], string(key)` — note the SECOND component is the WHOLE key, the
table prefix byte is not stripped. The `key[0]` index (a panic on an empty
key in Go, unreachable since all stored keys come from `packKey`) is
modelled with default `0`. -/
def unpackKey (key : GoStr) : Nat × GoStr := (key.headD 0, key)

/-- Errors crossing the store boundary: the `store.BreakScan` sentinel,
`store.ErrNotFound`, and genuine (possibly wrapping) errors with a message. -/
inductive GoErr where
  | breakScan : GoErr
  | notFound : GoErr
  | err : String → GoErr
deriving DecidableEq

/-- Rendering used when a genuine error is wrapped by `fmt.Errorf`. -/
def errMsg : GoErr → String
  | .breakScan => "break scan"
  | .notFound => "not found"
  | .err m => m

/-! ## Mutation batch (`batch` struct, `Reset`, `setTable`, `Flush`,
`FlushIfFull`) -/

/-- In-place update of an association list, the deterministic model of the
Go map assignment `m[key] = value`. -/
def mapSet (m : List (GoStr × GoStr)) (key value : GoStr) : List (GoStr × GoStr) :=
  match m with
  | [] => [(key, value)]
  | (k0, v0) :: rest => if k0 = key then (key, value) :: rest else (k0, v0) :: mapSet rest key value

/-- Go map lookup `m[key]` (present or not). -/
def mapGet (m : List (GoStr × GoStr)) (key : GoStr) : Option GoStr :=
  match m with
  | [] => none
  | (k0, v0) :: rest => if k0 = key then some v0 else mapGet rest key

/-- The `batch` struct: the `count` field and the three fixed buckets of
`tableMutations map[byte]map[string][]byte` (keys `TblPrefixRows`,
`TblPrefixIndex`, `TblPrefixLast`). -/
structure Batch where
  count : Nat
  rows : List (GoStr × GoStr)
  index : List (GoStr × GoStr)
  last : List (GoStr × GoStr)
deriving DecidableEq

/-- The bucket `b.tableMutations[t]`; tables outside the three fixed
prefixes are never populated (`Reset` installs exactly those three keys). -/
def tableMut (b : Batch) (t : Nat) : List (GoStr × GoStr) :=
  if t = TblRows then b.rows
  else if t = TblIndex then b.index
  else if t = TblLast then b.last
  else []

/-- Embeds `batch.Reset`: zero count, three fresh empty buckets. -/
def batchReset (_ : Batch) : Batch :=
  { count := 0, rows := [], index := [], last := [] }

/-- The state `newBatch` produces (it calls `Reset` on a fresh struct). -/
def batchEmpty : Batch :=
  { count := 0, rows := [], index := [], last := [] }

/-- Embeds `batch.setTable`: `b.tableMutations[table][key] = value; b.count++`.
The source only ever calls this with the three fixed table prefixes
(`SetRow`, `SetIndex`, `SetLast`); any other byte would hit a nil inner map
in Go, so the final branch is unreachable on source-produced calls. -/
def setTable (b : Batch) (table : Nat) (key value : GoStr) : Batch :=
  if table = TblRows then { b with rows := mapSet b.rows key value, count := b.count + 1 }
  else if table = TblIndex then { b with index := mapSet b.index key value, count := b.count + 1 }
  else if table = TblLast then { b with last := mapSet b.last key value, count := b.count + 1 }
  else { b with count := b.count + 1 }

/-- Embeds `batch.SetRow`. -/
def setRow (b : Batch) (key value : GoStr) : Batch := setTable b TblRows key value

/-- Embeds `batch.SetLast`. -/
def setLast (b : Batch) (key value : GoStr) : Batch := setTable b TblLast key value

/-- Embeds `batch.SetIndex`. -/
def setIndex (b : Batch) (key value : GoStr) : Batch := setTable b TblIndex key value

/-- Observable backend operations issued by a flush: a staged `Put` of a
packed physical key, and the `FlushPuts` durability barrier (bulk commit). -/
inductive KVOp where
  | put : GoStr → GoStr → KVOp
  | flushPuts : KVOp
deriving DecidableEq

/-- The puts `Flush` issues for one table: the `len(muts) <= 0` guard skips
an empty bucket, otherwise every buffered pair becomes
`Put(packKey(tblName, key), value)` (association-list order standing in for
the unspecified Go map iteration order). -/
def flushTableOps (b : Batch) (t : Nat) : List KVOp :=
  let muts := tableMut b t
  if muts.length ≤ 0 then []
  else muts.map (fun kv => KVOp.put (packKey t kv.1) kv.2)

/-- Embeds the successful path of `batch.Flush`: iterate the fixed
`tableNames` list `[ROWS, INDEX, LAST]` (the source comments that `last`
must always be last), stage every bucket entry as a `Put`, then issue the
single `FlushPuts` barrier, then `Reset`. Returns the post-flush batch and
the ordered backend operation trace. A backend `Put`/`FlushPuts` failure
aborts in Go before the subsequent steps; the claims concern successful
flushes, which this models. -/
def batchFlush (b : Batch) : Batch × List KVOp :=
  let tableNames : List Nat := [TblRows, TblIndex, TblLast]
  let ops := (tableNames.map (fun t => flushTableOps b t)).flatten ++ [KVOp.flushPuts]
  (batchReset b, ops)

/-- The `maxMutationCount = 100` threshold. -/
def maxMutationCount : Nat := 100

/-- Embeds `batch.FlushIfFull`: flush only when `b.count` exceeds the
threshold, otherwise do nothing (empty operation trace, batch unchanged). -/
def flushIfFull (b : Batch) : Batch × List KVOp :=
  if b.count ≤ maxMutationCount then (b, [])
  else batchFlush b

/-- Number of distinct buffered mutations after same-key collapsing (what
claim C5 calls the pending mutation count). -/
def distinctCount (b : Batch) : Nat :=
  b.rows.length + b.index.length + b.last.length

/-- `n` successive `setTable` calls on the same rows key, used to separate
`b.count` from the collapsed bucket size. -/
def setNTimes : Nat → Batch → Batch
  | 0, b => b
  | n + 1, b => setNTimes n (setTable b TblRows [1] [2])

/-! ## Shard injector (`parseFileName`, `readWriteRequestsForBatch`,
`ShardInjector.Run`) -/

/-- Embeds `strings.Split(filename, "-")` on a byte-character list. -/
def splitDash (cs : List Char) : List (List Char) :=
  match cs with
  | [] => [[]]
  | c :: rest =>
    match splitDash rest with
    | [] => [[]]
    | h :: t => if c = '-' then [] :: h :: t else (c :: h) :: t

/-- Decimal value of a digit string, as `strconv.ParseUint` accumulates it. -/
def decVal (s : List Char) : Nat :=
  s.foldl (fun acc c => acc * 10 + (c.toNat - 48)) 0

/-- Embeds `strconv.ParseUint(v, 10, 32)`: rejects the empty string and any
non-digit character (no sign prefix is permitted at base 10), and rejects
values above `2^32 - 1` (bitSize 32) with a range error. -/
def parseUint32 (s : List Char) : Except String Nat :=
  if s = [] then .error "invalid syntax"
  else if s.all (fun c => c.isDigit) then
    if decVal s < 2 ^ 32 then .ok (decVal s) else .error "value out of range"
  else .error "invalid syntax"

/-- Embeds `parseFileName`: split on `-`, require exactly two parts, parse
each as a 32-bit unsigned decimal. -/
def parseFileName (filename : List Char) : Except String (Nat × Nat) :=
  match splitDash filename with
  | [v1, v2] =>
    match parseUint32 v1 with
    | .error e => .error e
    | .ok first =>
      match parseUint32 v2 with
      | .error e => .error e
      | .ok last => .ok (first, last)
  | _ => .error "cannot parse filename"

/-- The `WriteRequest` unit of ingestion, at the granularity the injector
needs: its `Height` field and an opaque mutation payload. -/
structure WriteRequest where
  height : Nat
  payload : List Nat
deriving DecidableEq

/-- Embeds `readWriteRequestsForBatch`: the gob stream is modelled as the
sequence of record decode outcomes, `some req` for a successfully decoded
`WriteRequest` and `none` for a decode failure; the list end is `io.EOF`.
Requests with `Height ≤ startAfter` are skipped, a decode failure discards
everything and returns the error, EOF returns the collected requests. -/
def readWriteRequestsForBatch (stream : List (Option WriteRequest)) (startAfter : Nat) :
    Except String (List WriteRequest) :=
  match stream with
  | [] => .ok []
  | none :: _ => .error "unable to read WriteRequest"
  | some req :: rest =>
    if req.height ≤ startAfter then readWriteRequestsForBatch rest startAfter
    else (readWriteRequestsForBatch rest startAfter).map (fun l => req :: l)

/-- The ways one staged object makes `ShardInjector.Run` abort. -/
inductive InjError where
  | parse : String → InjError
  | gap : Nat → Nat → InjError
  | decode : String → InjError
deriving DecidableEq

/-- One staged shard object: its name and its decoded record stream. -/
structure ShardObject where
  name : List Char
  stream : List (Option WriteRequest)
deriving DecidableEq

/-- The injector state visible in `ShardInjector.Run`: the in-memory
watermark tracker `startAfterNum` and the log of `WriteBatch` calls issued
so far (each entry is the request list of one call). -/
structure InjectorState where
  startAfterNum : Nat
  written : List (List WriteRequest)
deriving DecidableEq

/-- Embeds the body of the `Walk` callback in `ShardInjector.Run` for one
staged object: parse the name; fatal gap error when
`fileFirst > startAfterNum+1`; skip entirely when
`fileLast <= startAfterNum`; otherwise decode (with the watermark filter),
apply the remainder as one `WriteBatch` call, and advance the watermark
tracker to `fileLast`. -/
def processShardFile (st : InjectorState) (f : ShardObject) : Except InjError InjectorState :=
  match parseFileName f.name with
  | .error e => .error (.parse e)
  | .ok (fileFirst, fileLast) =>
    if st.startAfterNum + 1 < fileFirst then .error (.gap fileFirst st.startAfterNum)
    else if fileLast ≤ st.startAfterNum then .ok st
    else
      match readWriteRequestsForBatch f.stream st.startAfterNum with
      | .error e => .error (.decode e)
      | .ok requests => .ok { startAfterNum := fileLast, written := st.written ++ [requests] }

/-- Embeds the `shardsStore.Walk` loop of `ShardInjector.Run`: objects are
processed in listing order; the first error aborts the walk, leaving the
state reached so far (no mutation from the failing object). -/
def runInjectorWalk (st : InjectorState) (files : List ShardObject) :
    InjectorState × Option InjError :=
  match files with
  | [] => (st, none)
  | f :: rest =>
    match processShardFile st f with
    | .error e => (st, some e)
    | .ok st2 => runInjectorWalk st2 rest

/-! ## KV store scan layer (`KVStore` methods over the backend contract) -/

/-- Byte-string strict order (`bytes.Compare(x, y) < 0`: lexicographic,
shorter prefix first), the key order of the backend `Scan` contract. -/
def ltB : GoStr → GoStr → Bool
  | [], [] => false
  | [], _ :: _ => true
  | _ :: _, [] => false
  | a :: as, b :: bs => if a < b then true else if b < a then false else ltB as bs

/-- Byte-string order `x ≤ y`. -/
def leB (x y : GoStr) : Bool := !(ltB y x)

/-- Whether `p` is a byte-prefix of `s`, for the backend `Prefix` iterator. -/
def startsWithB : GoStr → GoStr → Bool
  | [], _ => true
  | _ :: _, [] => false
  | a :: ps, b :: ss => a = b && startsWithB ps ss

/-- A scan limit: `some n` for a literal bound, `none` for `kv.Unlimited`. -/
def takeOpt {α : Type} (limit : Option Nat) (l : List α) : List α :=
  match limit with
  | none => l
  | some n => l.take n

/-- The KV backend at its interface boundary: the stored rows in ascending
physical-key order, plus an optional iterator failure surfaced by
`itr.Err()` after a completed iteration. -/
structure KVBackend where
  rows : List (GoStr × GoStr)
  scanErr : Option String
deriving DecidableEq

/-- Items the backend `Scan(startKey, endKey, limit)` iterator yields:
stored rows with `startKey ≤ key < endKey`, in key order, up to `limit`. -/
def kvScan (rows : List (GoStr × GoStr)) (startKey endKey : GoStr) (limit : Option Nat) :
    List (GoStr × GoStr) :=
  takeOpt limit (rows.filter (fun kv => leB startKey kv.1 && ltB kv.1 endKey))

/-- Items the backend `Prefix(prefix, limit)` iterator yields. -/
def kvPfxItems (rows : List (GoStr × GoStr)) (pfx : GoStr) (limit : Option Nat) :
    List (GoStr × GoStr) :=
  takeOpt limit (rows.filter (fun kv => startsWithB pfx kv.1))

/-- The shared `for itr.Next()` loop body of `scanRange`/`scanPrefix`: each
item is unpacked with `unpackKey` and handed to `onRow` (which threads its
captured state explicitly); a `BreakScan` result stops the loop returning
nil, any other error stops it wrapped with `wrapMsg`, and `none` means the
loop consumed every item. -/
def scanItemsLoop {σ : Type} (wrapMsg : String)
    (onRow : σ → GoStr → GoStr → σ × Except GoErr Unit) :
    σ → List (GoStr × GoStr) → σ × Option (Except GoErr Unit)
  | s, [] => (s, none)
  | s, item :: rest =>
    match onRow s (unpackKey item.1).2 item.2 with
    | (s2, .error .breakScan) => (s2, some (.ok ()))
    | (s2, .error e) => (s2, some (.error (.err (String.append wrapMsg (errMsg e)))))
    | (s2, .ok ()) => scanItemsLoop wrapMsg onRow s2 rest

/-- Embeds `KVStore.scanRange`: pack the bounds (an empty `keyEnd` means
"to the end of the table", one byte past the table prefix), iterate the
backend `Scan`, and check `itr.Err()` only when the loop ran to
completion. -/
def scanRange {σ : Type} (db : KVBackend) (table : Nat) (keyStart keyEnd : GoStr)
    (limit : Option Nat) (onRow : σ → GoStr → GoStr → σ × Except GoErr Unit) (s0 : σ) :
    σ × Except GoErr Unit :=
  match scanItemsLoop "scan range: unable to process: " onRow s0
      (kvScan db.rows (packKey table keyStart)
        (if keyEnd = [] then [table + 1] else packKey table keyEnd) limit) with
  | (s, some r) => (s, r)
  | (s, none) =>
    match db.scanErr with
    | some e => (s, .error (.err (String.append "unable to scan range: " e)))
    | none => (s, .ok ())

/-- Embeds `KVStore.scanPrefix` over the backend `Prefix` iterator. -/
def scanPfx {σ : Type} (db : KVBackend) (table : Nat) (pfxKey : GoStr)
    (limit : Option Nat) (onRow : σ → GoStr → GoStr → σ × Except GoErr Unit) (s0 : σ) :
    σ × Except GoErr Unit :=
  match scanItemsLoop "scan prefix: unable to process: " onRow s0
      (kvPfxItems db.rows (packKey table pfxKey) limit) with
  | (s, some r) => (s, r)
  | (s, none) =>
    match db.scanErr with
    | some e => (s, .error (.err (String.append "unable to scan prefix: " e)))
    | none => (s, .ok ())

/-- Embeds `KVStore.scanInfiniteRange`: `scanRange` with an empty end key. -/
def scanInfiniteRange {σ : Type} (db : KVBackend) (table : Nat) (keyStart : GoStr)
    (limit : Option Nat) (onRow : σ → GoStr → GoStr → σ × Except GoErr Unit) (s0 : σ) :
    σ × Except GoErr Unit :=
  scanRange db table keyStart [] limit onRow s0

/-- Embeds `KVStore.FetchSingletEntry`: a limit-1 range scan over `ROWS`
whose callback captures the first row (`key`, `value` start as `""`/nil)
and returns `BreakScan`; a non-`BreakScan` error is wrapped, otherwise the
captured pair is returned. -/
def fetchSingletEntry (db : KVBackend) (keyStart keyEnd : GoStr) :
    Except GoErr (GoStr × Option GoStr) :=
  match scanRange db TblRows keyStart keyEnd (some 1)
      (fun _ rowKey rowValue => ((rowKey, some rowValue), Except.error GoErr.breakScan))
      (([] : GoStr), (none : Option GoStr)) with
  | (s, .error e) =>
    if e = GoErr.breakScan then .ok s
    else .error (.err (String.append "unable to fetch single tablet row: " (errMsg e)))
  | (s, .ok ()) => .ok s

/-- Embeds `KVStore.FetchIndex`: a limit-1 infinite range scan over `INDEX`
whose callback breaks immediately, capturing the row only when it still has
the wanted prefix; a nil captured index yields `ErrNotFound`. (`tableKey`
is unused in the source body too.) -/
def fetchIndex (db : KVBackend) (tableKey prefixKey keyStart : GoStr) :
    Except GoErr (GoStr × GoStr) :=
  match scanInfiniteRange db TblIndex keyStart (some 1)
      (fun s key value =>
        if startsWithB prefixKey key = false then (s, Except.error GoErr.breakScan)
        else ((key, some value), Except.error GoErr.breakScan))
      (([] : GoStr), (none : Option GoStr)) with
  | (s, .error e) =>
    if e = GoErr.breakScan then
      match s.2 with
      | none => .error GoErr.notFound
      | some v => .ok (s.1, v)
    else .error (.err (String.append "unable to fetch index: " (errMsg e)))
  | (s, .ok ()) =>
    match s.2 with
    | none => .error GoErr.notFound
    | some v => .ok (s.1, v)

/-- Embeds `KVStore.HasTabletRow`: a limit-1 prefix scan over `ROWS` whose
callback sets `exists = true` and breaks. -/
def hasTabletRow (db : KVBackend) (tabletKey : GoStr) : Except GoErr Bool :=
  match scanPfx db TblRows tabletKey (some 1)
      (fun _ _ _ => (true, Except.error GoErr.breakScan)) false with
  | (ex, .error e) =>
    if e = GoErr.breakScan then .ok ex
    else .error (.err (String.append "scan prefix for table failed: " (errMsg e)))
  | (ex, .ok ()) => .ok ex

/-- Embeds `KVStore.ScanTabletRows`: unlimited range scan over `ROWS`; the
caller callback result is passed through when it is `BreakScan`, wrapped
otherwise; the final result intercepts `BreakScan` into nil. -/
def scanTabletRows {σ : Type} (db : KVBackend) (keyStart keyEnd : GoStr)
    (onTabletRow : σ → GoStr → GoStr → σ × Except GoErr Unit) (s0 : σ) :
    σ × Except GoErr Unit :=
  match scanRange db TblRows keyStart keyEnd none
      (fun s key value =>
        match onTabletRow s key value with
        | (s2, .error .breakScan) => (s2, .error .breakScan)
        | (s2, .error e) =>
          (s2, .error (.err (String.append "on tablet row failed: " (errMsg e))))
        | (s2, .ok ()) => (s2, .ok ())) s0 with
  | (s, .error e) =>
    if e = GoErr.breakScan then (s, .ok ())
    else (s, .error (.err (String.append "unable to scan tablet rows: " (errMsg e))))
  | (s, .ok ()) => (s, .ok ())

/-- Embeds `KVStore.ScanLastShardsWrittenBlock`: unlimited prefix scan over
`LAST` with the same callback wrapping discipline as `ScanTabletRows` (the
conversion of the raw value through `bstream.BlockRefFromID` is external
and the callback receives the raw value here). -/
def scanLastShardsWrittenBlock {σ : Type} (db : KVBackend) (keyPfx : GoStr)
    (onBlockRef : σ → GoStr → GoStr → σ × Except GoErr Unit) (s0 : σ) :
    σ × Except GoErr Unit :=
  match scanPfx db TblLast keyPfx none
      (fun s key value =>
        match onBlockRef s key value with
        | (s2, .error .breakScan) => (s2, .error .breakScan)
        | (s2, .error e) =>
          (s2, .error (.err (String.append "on block ref failed: " (errMsg e))))
        | (s2, .ok ()) => (s2, .ok ())) s0 with
  | (s, .error e) =>
    if e = GoErr.breakScan then (s, .ok ())
    else (s, .error (.err (String.append "unable to scan last blocks: " (errMsg e))))
  | (s, .ok ()) => (s, .ok ())

/-- How the `fetchKeys` loop over the `BatchGet` iterator ended. -/
inductive LoopEnd where
  | completed : LoopEnd
  | broke : LoopEnd
  | failed : GoErr → LoopEnd
deriving DecidableEq

/-- The `for itr.Next()` loop of `KVStore.fetchKeys`: the `BatchGet`
iterator yields `(packed key, value)` items where a `nil` value (`none`)
marks a key not found and is skipped WITHOUT invoking the callback, while a
found key (including one with an empty value, `some []`) is unpacked and
handed to `onTabletRow`. Besides the threaded state, the model records the
trace of `(key, value)` pairs actually passed to the callback. -/
def fetchKeysLoop {σ : Type} (onRow : σ → GoStr → GoStr → σ × Except GoErr Unit) :
    σ → List (GoStr × Option GoStr) → σ × List (GoStr × GoStr) × LoopEnd
  | s, [] => (s, [], .completed)
  | s, (_, none) :: rest => fetchKeysLoop onRow s rest
  | s, (k, some v) :: rest =>
    match onRow s (unpackKey k).2 v with
    | (s2, .error .breakScan) => (s2, [((unpackKey k).2, v)], .broke)
    | (s2, .error e) =>
      (s2, [((unpackKey k).2, v)],
        .failed (.err (String.append "on tablet row failed: " (errMsg e))))
    | (s2, .ok ()) =>
      match fetchKeysLoop onRow s2 rest with
      | (s3, tr, outc) => (s3, ((unpackKey k).2, v) :: tr, outc)

/-- Embeds `KVStore.fetchKeys` (the `FetchTabletRows` path): run the
`BatchGet` loop; a `BreakScan` from the callback returns nil early, a
wrapped callback error propagates, and `itr.Err()` is checked only after a
completed iteration. -/
def fetchKeys {σ : Type} (items : List (GoStr × Option GoStr)) (itrErr : Option String)
    (onRow : σ → GoStr → GoStr → σ × Except GoErr Unit) (s0 : σ) :
    σ × List (GoStr × GoStr) × Except GoErr Unit :=
  match fetchKeysLoop onRow s0 items with
  | (s, tr, .broke) => (s, tr, .ok ())
  | (s, tr, .failed e) => (s, tr, .error e)
  | (s, tr, .completed) =>
    match itrErr with
    | some e => (s, tr, .error (.err (String.append "unable to fetch keys: " e)))
    | none => (s, tr, .ok ())

/-! ## Singlet point-in-time read (spec-modelled key encoding) -/

/-- The maximum 64-bit block height. -/
def MAXH : Nat := 2 ^ 64 - 1

/-- Modelled from the spec: the versioned `ROWS` content for one singlet.
The read path and key codec of the repository (its `key.go`/`read.go`) are
not among the scanned sources; per the spec the physical key appends an
order-inverting fixed-width encoding of the height to the entity key, so
that a forward scan visits versions most-recent-first. Height `h` is
encoded here as the single key symbol `MAXH - h` appended to the singlet
key; rows are listed in ascending physical-key order (descending height),
which is the backend order for a version list given in ascending height
order. -/
def singletDB (sKey : GoStr) (versions : List (Nat × GoStr)) : KVBackend :=
  { rows := (versions.map (fun v => (packKey TblRows (sKey ++ [MAXH - v.1]), v.2))).reverse
    scanErr := none }

/-- Modelled from the spec: `ReadSingletEntryAt` with no speculative
writes. The persisted candidate is the first hit of a single forward
`FetchSingletEntry` scan starting at the encoded query height (the scan
range ends one symbol past the lowest encoded height of this singlet); the
version height is recovered from the encoded key of the hit, the payload is
the stored value, and no hit is absence. -/
def readSingletAt (sKey : GoStr) (versions : List (Nat × GoStr)) (h : Nat) :
    Option (Nat × GoStr) :=
  match fetchSingletEntry (singletDB sKey versions) (sKey ++ [MAXH - h]) (sKey ++ [MAXH + 1]) with
  | .ok (key, some value) => some (MAXH - key.getLastD 0, value)
  | _ => none

/-! ## Helper lemmas for the batch -/

theorem flushTableOps_eq (b : Batch) (t : Nat) :
    flushTableOps b t = (tableMut b t).map (fun kv => KVOp.put (packKey t kv.1) kv.2) := by
  unfold flushTableOps
  cases h : tableMut b t <;> simp

theorem count_flushPuts_map (t : Nat) (l : List (GoStr × GoStr)) :
    (l.map (fun kv => KVOp.put (packKey t kv.1) kv.2)).count KVOp.flushPuts = 0 := by
  induction l with
  | nil => rfl
  | cons kv rest ih => simpa [List.count_cons] using ih

theorem mapSet_mapSet (m : List (GoStr × GoStr)) (k v1 v2 : GoStr) :
    mapSet (mapSet m k v1) k v2 = mapSet m k v2 := by
  induction m with
  | nil => simp [mapSet]
  | cons kv rest ih =>
    by_cases h : kv.1 = k
    · simp [mapSet, h]
    · simp [mapSet, h, ih]

theorem mapGet_mapSet (m : List (GoStr × GoStr)) (k v : GoStr) :
    mapGet (mapSet m k v) k = some v := by
  induction m with
  | nil => simp [mapSet, mapGet]
  | cons kv rest ih =>
    by_cases h : kv.1 = k
    · simp [mapSet, h, mapGet]
    · simp [mapSet, h, mapGet, ih]

/-! ## Claim theorems on the key codec and the batch -/

/-- Claim C1 (code bug, evaluated at the failing input): decoding the packed
key for table `ROWS` and entity key `"a"` (byte 97) yields the WHOLE packed
key `[0x00, 97]` as the entity-key component, not `"a"`: the source returns
`string(key)` where a symmetric codec (and the spec, which says decoding
recovers `(tablePrefix, entityKey)`) requires `string(key[1:])`. -/
theorem unpackKey_keeps_table_byte :
    unpackKey (packKey TblRows [97]) = (TblRows, TblRows :: [97])
    ∧ unpackKey (packKey TblRows [97]) ≠ (TblRows, [97]) := by
  constructor
  · rfl
  · decide

/-- Claim C4: a successful `Flush` emits its staged puts grouped by table in
the fixed order `ROWS`, then `INDEX`, then `LAST` (the `LAST` group strictly
last before the barrier), issues exactly one `FlushPuts` durability barrier
as the final operation, and leaves the batch fully reset (zero count, all
three buckets empty). -/
theorem flush_order_barrier_reset (b : Batch) :
    (batchFlush b).2
      = b.rows.map (fun kv => KVOp.put (packKey TblRows kv.1) kv.2)
        ++ b.index.map (fun kv => KVOp.put (packKey TblIndex kv.1) kv.2)
        ++ b.last.map (fun kv => KVOp.put (packKey TblLast kv.1) kv.2)
        ++ [KVOp.flushPuts]
    ∧ (batchFlush b).2.count KVOp.flushPuts = 1
    ∧ (batchFlush b).1 = batchEmpty := by
  have htrace : (batchFlush b).2
      = b.rows.map (fun kv => KVOp.put (packKey TblRows kv.1) kv.2)
        ++ b.index.map (fun kv => KVOp.put (packKey TblIndex kv.1) kv.2)
        ++ b.last.map (fun kv => KVOp.put (packKey TblLast kv.1) kv.2)
        ++ [KVOp.flushPuts] := by
    show (([TblRows, TblIndex, TblLast].map (fun t => flushTableOps b t)).flatten ++ [KVOp.flushPuts]) = _
    simp [flushTableOps_eq, tableMut, TblRows, TblIndex, TblLast]
  refine ⟨htrace, ?_, rfl⟩
  rw [htrace]
  simp [List.count_append, count_flushPuts_map, List.count_cons]

/-- Claim C7: within one batch, two successive writes to the same key of the
same table collapse to the latest value: the bucket then holds exactly `v2`
for `k`, and every bucket equals what a single write of `v2` would have
produced. -/
theorem batch_same_key_collapse (b : Batch) (t : Nat) (k v1 v2 : GoStr)
    (ht : t = TblRows ∨ t = TblIndex ∨ t = TblLast) :
    mapGet (tableMut (setTable (setTable b t k v1) t k v2) t) k = some v2
    ∧ ∀ t2 : Nat, tableMut (setTable (setTable b t k v1) t k v2) t2
        = tableMut (setTable b t k v2) t2 := by
  rcases ht with h | h | h <;> subst h <;>
    refine ⟨?_, fun t2 => ?_⟩ <;>
    simp [setTable, tableMut, TblRows, TblIndex, TblLast, mapSet_mapSet, mapGet_mapSet]

/-- Claim C5 counterexample: after 101 `setTable` calls on one single key,
the batch holds exactly 1 distinct buffered mutation (≤ 100), yet
`FlushIfFull` DOES flush (its backend trace is nonempty and the batch is
reset), because the threshold compares the raw `count` field, which counts
every set operation including overwrites. -/
theorem flushIfFull_distinct_count_cex :
    distinctCount (setNTimes 101 batchEmpty) ≤ 100
    ∧ (flushIfFull (setNTimes 101 batchEmpty)).2 ≠ []
    ∧ (flushIfFull (setNTimes 101 batchEmpty)).1 ≠ setNTimes 101 batchEmpty := by
  refine ⟨by decide, by decide, by decide⟩

/-- Claim C5 (amended): `FlushIfFull` flushes exactly when the `count` field
exceeds `maxMutationCount = 100`, where `count` is the number of `setTable`
calls since the last `Reset` (incremented on every set, including an
overwrite of an already-buffered key); at `count ≤ 100` it performs no
backend operation and leaves the batch unchanged. -/
theorem flushIfFull_raw_count_threshold (b : Batch) :
    (b.count ≤ maxMutationCount → flushIfFull b = (b, []))
    ∧ (maxMutationCount < b.count → flushIfFull b = batchFlush b)
    ∧ ∀ (t : Nat) (k v : GoStr), (setTable b t k v).count = b.count + 1 := by
  refine ⟨fun h => ?_, fun h => ?_, fun t k v => ?_⟩
  · simp [flushIfFull, h]
  · simp [flushIfFull, Nat.not_le.mpr h]
  · unfold setTable
    split
    · rfl
    · split
      · rfl
      · split <;> rfl

/-- Witness for C5 amended theorem: the empty batch has `count = 0 ≤ 100` and
`FlushIfFull` leaves it untouched with no backend operation. -/
theorem flushIfFull_raw_count_threshold_w :
    batchEmpty.count ≤ maxMutationCount ∧ flushIfFull batchEmpty = (batchEmpty, []) :=
  ⟨by decide, (flushIfFull_raw_count_threshold batchEmpty).1 (by decide)⟩

/-- Witness for C7 at a concrete batch: writing key `[7]` to `[1]` then to
`[2]` in the rows bucket leaves exactly `[2]` buffered. -/
theorem batch_same_key_collapse_w :
    mapGet (tableMut (setTable (setTable batchEmpty TblRows [7] [1]) TblRows [7] [2]) TblRows) [7]
      = some [2] :=
  (batch_same_key_collapse batchEmpty TblRows [7] [1] [2] (Or.inl rfl)).1

/-! ## Helper lemmas for the injector -/

theorem splitDash_cons (c : Char) (rest : List Char) :
    splitDash (c :: rest)
      = match splitDash rest with
        | [] => [[]]
        | h :: t => if c = '-' then [] :: h :: t else (c :: h) :: t := rfl

theorem splitDash_ne_nil (cs : List Char) : splitDash cs ≠ [] := by
  induction cs with
  | nil => simp [splitDash]
  | cons c rest ih =>
    rw [splitDash_cons]
    cases hr : splitDash rest with
    | nil => simp
    | cons a t =>
      have : (match a :: t with
        | [] => [[]]
        | h :: t => if c = '-' then [] :: h :: t else (c :: h) :: t)
          = if c = '-' then [] :: a :: t else (c :: a) :: t := rfl
      rw [this]
      split <;> simp

theorem splitDash_dashfree (x : List Char) (hx : '-' ∉ x) : splitDash x = [x] := by
  induction x with
  | nil => rfl
  | cons c rest ih =>
    have hc : c ≠ '-' := by
      intro h
      exact hx (by simp [h])
    have hrest : '-' ∉ rest := fun h => hx (List.mem_cons_of_mem _ h)
    rw [splitDash_cons, ih hrest]
    show (if c = '-' then [] :: [rest] else (c :: rest) :: []) = [c :: rest]
    rw [if_neg hc]

theorem splitDash_append (x y : List Char) (hx : '-' ∉ x) :
    splitDash (x ++ '-' :: y) = x :: splitDash y := by
  induction x with
  | nil =>
    show splitDash ('-' :: y) = [] :: splitDash y
    rw [splitDash_cons]
    cases hr : splitDash y with
    | nil => exact absurd hr (splitDash_ne_nil y)
    | cons a t =>
      show (if '-' = '-' then [] :: a :: t else ('-' :: a) :: t) = [] :: a :: t
      rw [if_pos rfl]
  | cons c rest ih =>
    have hc : c ≠ '-' := by
      intro h
      exact hx (by simp [h])
    have hrest : '-' ∉ rest := fun h => hx (List.mem_cons_of_mem _ h)
    show splitDash (c :: (rest ++ '-' :: y)) = (c :: rest) :: splitDash y
    rw [splitDash_cons, ih hrest]
    show (if c = '-' then [] :: rest :: splitDash y else (c :: rest) :: splitDash y)
      = (c :: rest) :: splitDash y
    rw [if_neg hc]

theorem splitDash_eq_single (l x : List Char) (h : splitDash l = [x]) :
    l = x ∧ '-' ∉ x := by
  induction l generalizing x with
  | nil =>
    simp [splitDash] at h
    subst h
    simp
  | cons c rest ih =>
    rw [splitDash_cons] at h
    cases hr : splitDash rest with
    | nil => exact absurd hr (splitDash_ne_nil rest)
    | cons a t =>
      rw [hr] at h
      have h2 : (if c = '-' then [] :: a :: t else (c :: a) :: t) = [x] := h
      by_cases hc : c = '-'
      · rw [if_pos hc] at h2
        exact absurd h2 (by simp)
      · rw [if_neg hc] at h2
        have h3 : c :: a = x := (List.cons_eq_cons.mp h2).1
        have h4 : t = [] := (List.cons_eq_cons.mp h2).2
        subst h4
        have h5 := ih a (by rw [hr])
        refine ⟨by rw [← h3, h5.1], ?_⟩
        rw [← h3]
        intro hm
        rcases List.mem_cons.mp hm with hm | hm
        · exact hc hm.symm
        · exact h5.2 hm

theorem splitDash_eq_pair (l x y : List Char) (h : splitDash l = [x, y]) :
    l = x ++ '-' :: y ∧ '-' ∉ x ∧ '-' ∉ y := by
  induction l generalizing x y with
  | nil => simp [splitDash] at h
  | cons c rest ih =>
    rw [splitDash_cons] at h
    cases hr : splitDash rest with
    | nil => exact absurd hr (splitDash_ne_nil rest)
    | cons a t =>
      rw [hr] at h
      have h2 : (if c = '-' then [] :: a :: t else (c :: a) :: t) = [x, y] := h
      by_cases hc : c = '-'
      · rw [if_pos hc] at h2
        have h3 : ([] : List Char) = x := (List.cons_eq_cons.mp h2).1
        have h4 : a :: t = [y] := (List.cons_eq_cons.mp h2).2
        have h5 := splitDash_eq_single rest y (by rw [hr, h4])
        subst hc
        refine ⟨?_, ?_, h5.2⟩
        · rw [← h3, h5.1]
          rfl
        · rw [← h3]
          simp
      · rw [if_neg hc] at h2
        have h3 : c :: a = x := (List.cons_eq_cons.mp h2).1
        have h4 : t = [y] := (List.cons_eq_cons.mp h2).2
        subst h4
        have h5 := ih a y (by rw [hr])
        refine ⟨?_, ?_, h5.2.2⟩
        · rw [← h3, h5.1]
          rfl
        · rw [← h3]
          intro hm
          rcases List.mem_cons.mp hm with hm | hm
          · exact hc hm.symm
          · exact h5.2.1 hm

theorem parseUint32_ok_iff (s : List Char) (a : Nat) :
    parseUint32 s = .ok a ↔
      (s ≠ [] ∧ (∀ c ∈ s, c.isDigit = true) ∧ decVal s = a ∧ a < 2 ^ 32) := by
  unfold parseUint32
  by_cases h0 : s = []
  · simp [h0]
  · rw [if_neg h0]
    by_cases hd : s.all (fun c => c.isDigit) = true
    · rw [if_pos hd]
      rw [List.all_eq_true] at hd
      by_cases hr : decVal s < 2 ^ 32
      · simp only [if_pos hr]
        constructor
        · intro h
          have hv := Except.ok.inj h
          exact ⟨h0, hd, hv, hv ▸ hr⟩
        · intro ⟨_, _, hv, _⟩
          rw [hv]
      · simp only [if_neg hr]
        constructor
        · intro h
          exact absurd h (by simp)
        · intro ⟨_, _, hv, hlt⟩
          exact absurd (hv ▸ hlt) hr
    · rw [if_neg hd]
      constructor
      · intro h
        exact absurd h (by simp)
      · intro ⟨_, hdig, _, _⟩
        exact absurd (List.all_eq_true.mpr hdig) hd

theorem readWRFB_map_some (ds : List WriteRequest) (w : Nat) :
    readWriteRequestsForBatch (ds.map some) w
      = .ok (ds.filter (fun r => decide (w < r.height))) := by
  induction ds with
  | nil => rfl
  | cons r rest ih =>
    show readWriteRequestsForBatch (some r :: rest.map some) w = _
    unfold readWriteRequestsForBatch
    by_cases h : r.height ≤ w
    · rw [if_pos h, ih]
      have hd : decide (w < r.height) = false := by
        simp [Nat.not_lt.mpr h]
      simp [List.filter_cons, hd]
    · rw [if_neg h, ih]
      have hd : decide (w < r.height) = true := by
        simp [Nat.lt_of_not_le h]
      simp [List.filter_cons, hd, Except.map]

/-! ## Claim theorems on the shard injector -/

/-- Claim C2: with current watermark `w = st.startAfterNum` and a staged
object whose parsed range is `(first, last)` with no gap: when `last ≤ w`
the object is skipped entirely (state, log and watermark unchanged); the
decode step discards exactly the requests with `Height ≤ w`, keeping the
strictly-newer remainder in order; and when `w < last` the remainder is
applied as one `WriteBatch` call and the in-memory watermark tracker is
advanced to `last`. -/
theorem injector_skip_and_filter (st : InjectorState) (f : ShardObject) (first last : Nat)
    (hp : parseFileName f.name = .ok (first, last))
    (hnogap : first ≤ st.startAfterNum + 1) :
    (last ≤ st.startAfterNum → processShardFile st f = .ok st)
    ∧ (∀ ds : List WriteRequest,
        readWriteRequestsForBatch (ds.map some) st.startAfterNum
          = .ok (ds.filter (fun r => decide (st.startAfterNum < r.height))))
    ∧ (st.startAfterNum < last → ∀ ds : List WriteRequest, f.stream = ds.map some →
        processShardFile st f
          = .ok { startAfterNum := last,
                  written := st.written
                    ++ [ds.filter (fun r => decide (st.startAfterNum < r.height))] }) := by
  have hng : ¬ st.startAfterNum + 1 < first := Nat.not_lt.mpr hnogap
  refine ⟨fun hskip => ?_, fun ds => readWRFB_map_some ds st.startAfterNum, fun happ ds hds => ?_⟩
  · unfold processShardFile
    rw [hp]
    show (if st.startAfterNum + 1 < first then _ else _) = _
    rw [if_neg hng, if_pos hskip]
  · unfold processShardFile
    rw [hp]
    show (if st.startAfterNum + 1 < first then _ else _) = _
    rw [if_neg hng, if_neg (Nat.not_le.mpr happ), hds, readWRFB_map_some]

/-- Witness for C2 at a concrete input: watermark 2, object named `2-3`
holding requests at heights 2 and 3; the height-2 request is discarded, the
height-3 request is applied as one batch, and the watermark advances to 3. -/
theorem injector_skip_and_filter_w :
    processShardFile { startAfterNum := 2, written := [] }
        { name := ['2', '-', '3'],
          stream := [some { height := 2, payload := [1] }, some { height := 3, payload := [2] }] }
      = .ok { startAfterNum := 3, written := [[{ height := 3, payload := [2] }]] } := by
  have h := (injector_skip_and_filter { startAfterNum := 2, written := [] }
      { name := ['2', '-', '3'],
        stream := [some { height := 2, payload := [1] }, some { height := 3, payload := [2] }] }
      2 3 rfl (by decide)).2.2 (by decide)
      [{ height := 2, payload := [1] }, { height := 3, payload := [2] }] rfl
  exact h.trans rfl

/-- Claim C3: a staged object whose parsed `first` exceeds the watermark
plus one makes the injector return the fatal gap error; no mutation from
that object is applied and the walk stops with the state (watermark tracker
and write log) it had before the object. -/
theorem injector_gap_aborts (st : InjectorState) (f : ShardObject) (rest : List ShardObject)
    (first last : Nat) (hp : parseFileName f.name = .ok (first, last))
    (hgap : st.startAfterNum + 1 < first) :
    processShardFile st f = .error (.gap first st.startAfterNum)
    ∧ runInjectorWalk st (f :: rest) = (st, some (.gap first st.startAfterNum)) := by
  have h1 : processShardFile st f = .error (.gap first st.startAfterNum) := by
    unfold processShardFile
    rw [hp]
    show (if st.startAfterNum + 1 < first then _ else _) = _
    rw [if_pos hgap]
  refine ⟨h1, ?_⟩
  unfold runInjectorWalk
  rw [h1]

/-- Witness for C3 at a concrete input: watermark 0, object named `5-6`
(5 > 0 + 1): the walk aborts with the gap error and the state is unchanged. -/
theorem injector_gap_aborts_w :
    runInjectorWalk { startAfterNum := 0, written := [] } [{ name := ['5', '-', '6'], stream := [] }]
      = ({ startAfterNum := 0, written := [] }, some (.gap 5 0)) :=
  (injector_gap_aborts { startAfterNum := 0, written := [] }
    { name := ['5', '-', '6'], stream := [] } [] 5 6 rfl (by decide)).2

/-- Claim C10: `parseFileName` succeeds with `(a, b)` exactly when the name
is two dash-separated nonempty decimal digit strings whose values are `a`
and `b`, each at most `2^32 - 1` (so a part above 4294967295 is rejected
even though heights are 64-bit elsewhere); and a parse failure aborts the
injector walk before any mutation from that object. -/
theorem parseFileName_charac (name : List Char) (a b : Nat) :
    (parseFileName name = .ok (a, b) ↔
      ∃ s1 s2 : List Char, name = s1 ++ '-' :: s2
        ∧ s1 ≠ [] ∧ s2 ≠ []
        ∧ (∀ c ∈ s1, c.isDigit = true) ∧ (∀ c ∈ s2, c.isDigit = true)
        ∧ decVal s1 = a ∧ decVal s2 = b ∧ a < 2 ^ 32 ∧ b < 2 ^ 32)
    ∧ (∀ (e : String) (st : InjectorState) (stream : List (Option WriteRequest))
        (rest : List ShardObject),
        parseFileName name = .error e →
        runInjectorWalk st ({ name := name, stream := stream } :: rest)
          = (st, some (.parse e))) := by
  constructor
  · constructor
    · intro hok
      unfold parseFileName at hok
      cases hsplit : splitDash name with
      | nil => rw [hsplit] at hok; exact absurd hok (by simp)
      | cons v1 tl =>
        cases tl with
        | nil => rw [hsplit] at hok; exact absurd hok (by simp)
        | cons v2 tl2 =>
          cases tl2 with
          | cons v3 tl3 => rw [hsplit] at hok; exact absurd hok (by simp)
          | nil =>
            rw [hsplit] at hok
            have hok2 : (match parseUint32 v1 with
                | Except.error e => Except.error e
                | Except.ok first =>
                  match parseUint32 v2 with
                  | Except.error e => Except.error e
                  | Except.ok last => Except.ok (first, last)) = Except.ok (a, b) := hok
            cases h1 : parseUint32 v1 with
            | error e => rw [h1] at hok2; exact absurd hok2 (by simp)
            | ok a1 =>
              rw [h1] at hok2
              cases h2 : parseUint32 v2 with
              | error e => rw [h2] at hok2; exact absurd hok2 (by simp)
              | ok a2 =>
                rw [h2] at hok2
                have hab := Except.ok.inj hok2
                have ha1 : a1 = a := congrArg Prod.fst hab
                have ha2 : a2 = b := congrArg Prod.snd hab
                have hdec := splitDash_eq_pair name v1 v2 hsplit
                have hh1 := (parseUint32_ok_iff v1 a1).mp h1
                have hh2 := (parseUint32_ok_iff v2 a2).mp h2
                exact ⟨v1, v2, hdec.1, hh1.1, hh2.1, hh1.2.1, hh2.2.1,
                  ha1 ▸ hh1.2.2.1, ha2 ▸ hh2.2.2.1, ha1 ▸ hh1.2.2.2, ha2 ▸ hh2.2.2.2⟩
    · rintro ⟨s1, s2, hname, h1ne, h2ne, hd1, hd2, hv1, hv2, hlt1, hlt2⟩
      have hnd1 : '-' ∉ s1 := by
        intro hm
        have := hd1 '-' hm
        exact absurd this (by decide)
      have hnd2 : '-' ∉ s2 := by
        intro hm
        have := hd2 '-' hm
        exact absurd this (by decide)
      subst hname
      unfold parseFileName
      rw [splitDash_append s1 s2 hnd1, splitDash_dashfree s2 hnd2]
      show (match parseUint32 s1 with
        | Except.error e => Except.error e
        | Except.ok first =>
          match parseUint32 s2 with
          | Except.error e => Except.error e
          | Except.ok last => Except.ok (first, last)) = Except.ok (a, b)
      rw [(parseUint32_ok_iff s1 a).mpr ⟨h1ne, hd1, hv1, hlt1⟩]
      rw [(parseUint32_ok_iff s2 b).mpr ⟨h2ne, hd2, hv2, hlt2⟩]
  · intro e st stream rest hpe
    have h1 : processShardFile st { name := name, stream := stream } = .error (.parse e) := by
      unfold processShardFile
      rw [hpe]
    unfold runInjectorWalk
    rw [h1]

/-- Witness for C10 at a concrete input: `"12-34"` parses to `(12, 34)`,
obtained through the characterization. -/
theorem parseFileName_charac_w :
    parseFileName ['1', '2', '-', '3', '4'] = .ok (12, 34) :=
  (parseFileName_charac ['1', '2', '-', '3', '4'] 12 34).1.mpr
    ⟨['1', '2'], ['3', '4'], rfl, by decide, by decide, by decide, by decide,
      rfl, rfl, by decide, by decide⟩

/-! ## Helper lemmas for the scan layer -/

theorem scanItemsLoop_result {σ : Type} (msg : String)
    (onRow : σ → GoStr → GoStr → σ × Except GoErr Unit) (s : σ)
    (items : List (GoStr × GoStr)) :
    (scanItemsLoop msg onRow s items).2 = none
    ∨ (scanItemsLoop msg onRow s items).2 = some (.ok ())
    ∨ ∃ m, (scanItemsLoop msg onRow s items).2 = some (.error (.err m)) := by
  induction items generalizing s with
  | nil => exact Or.inl rfl
  | cons item rest ih =>
    unfold scanItemsLoop
    rcases h : onRow s (unpackKey item.1).2 item.2 with ⟨s2, r⟩
    cases r with
    | ok u =>
      cases u
      exact ih s2
    | error e =>
      cases e with
      | breakScan => exact Or.inr (Or.inl rfl)
      | notFound => exact Or.inr (Or.inr ⟨_, rfl⟩)
      | err m => exact Or.inr (Or.inr ⟨_, rfl⟩)

theorem scanRange_result {σ : Type} (db : KVBackend) (table : Nat) (keyStart keyEnd : GoStr)
    (limit : Option Nat) (onRow : σ → GoStr → GoStr → σ × Except GoErr Unit) (s0 : σ) :
    (scanRange db table keyStart keyEnd limit onRow s0).2 = .ok ()
    ∨ ∃ m, (scanRange db table keyStart keyEnd limit onRow s0).2 = .error (.err m) := by
  unfold scanRange
  rcases hl : scanItemsLoop "scan range: unable to process: " onRow s0
      (kvScan db.rows (packKey table keyStart)
        (if keyEnd = [] then [table + 1] else packKey table keyEnd) limit) with ⟨s, o⟩
  have hres := scanItemsLoop_result "scan range: unable to process: " onRow s0
    (kvScan db.rows (packKey table keyStart)
      (if keyEnd = [] then [table + 1] else packKey table keyEnd) limit)
  rw [hl] at hres
  rcases hres with h | h | ⟨m, h⟩ <;> simp only at h <;> subst h
  · cases he : db.scanErr with
    | none => simp [he]
    | some e => simp [he]
  · simp
  · simp

theorem scanPfx_result {σ : Type} (db : KVBackend) (table : Nat) (pfxKey : GoStr)
    (limit : Option Nat) (onRow : σ → GoStr → GoStr → σ × Except GoErr Unit) (s0 : σ) :
    (scanPfx db table pfxKey limit onRow s0).2 = .ok ()
    ∨ ∃ m, (scanPfx db table pfxKey limit onRow s0).2 = .error (.err m) := by
  unfold scanPfx
  rcases hl : scanItemsLoop "scan prefix: unable to process: " onRow s0
      (kvPfxItems db.rows (packKey table pfxKey) limit) with ⟨s, o⟩
  have hres := scanItemsLoop_result "scan prefix: unable to process: " onRow s0
    (kvPfxItems db.rows (packKey table pfxKey) limit)
  rw [hl] at hres
  rcases hres with h | h | ⟨m, h⟩ <;> simp only at h <;> subst h
  · cases he : db.scanErr with
    | none => simp [he]
    | some e => simp [he]
  · simp
  · simp

theorem scanItemsLoop_break_all {σ : Type} (msg : String)
    (onRow : σ → GoStr → GoStr → σ × Except GoErr Unit)
    (hb : ∀ s k v, (onRow s k v).2 = Except.error GoErr.breakScan)
    (s : σ) (item : GoStr × GoStr) (rest : List (GoStr × GoStr)) :
    (scanItemsLoop msg onRow s (item :: rest)).2 = some (.ok ()) := by
  unfold scanItemsLoop
  rcases h : onRow s (unpackKey item.1).2 item.2 with ⟨s2, r⟩
  have hr := hb s (unpackKey item.1).2 item.2
  rw [h] at hr
  simp only at hr
  subst hr
  rfl

theorem scanRange_break_all {σ : Type} (db : KVBackend) (table : Nat)
    (keyStart keyEnd : GoStr) (limit : Option Nat)
    (onRow : σ → GoStr → GoStr → σ × Except GoErr Unit) (s0 : σ)
    (hb : ∀ s k v, (onRow s k v).2 = Except.error GoErr.breakScan)
    (hse : db.scanErr = none) :
    (scanRange db table keyStart keyEnd limit onRow s0).2 = .ok () := by
  unfold scanRange
  cases hitems : kvScan db.rows (packKey table keyStart)
      (if keyEnd = [] then [table + 1] else packKey table keyEnd) limit with
  | nil =>
    show (match scanItemsLoop "scan range: unable to process: " onRow s0 [] with
      | (s, some r) => (s, r)
      | (s, none) =>
        match db.scanErr with
        | some e => (s, Except.error (GoErr.err (String.append "unable to scan range: " e)))
        | none => (s, Except.ok ())).2 = Except.ok ()
    show (match db.scanErr with
      | some e => (s0, Except.error (GoErr.err (String.append "unable to scan range: " e)))
      | none => (s0, Except.ok ())).2 = Except.ok ()
    rw [hse]
  | cons item rest =>
    rcases hl : scanItemsLoop "scan range: unable to process: " onRow s0 (item :: rest)
      with ⟨s, o⟩
    have hloop := scanItemsLoop_break_all "scan range: unable to process: " onRow hb s0 item rest
    rw [hl] at hloop
    simp only at hloop
    subst hloop
    rfl

/-! ## Claim theorems on the scan layer -/

/-- Claim C8: the `BreakScan` sentinel never escapes the public read
operations: for every backend state, key arguments, callback and initial
state, `FetchSingletEntry`, `FetchIndex`, `HasTabletRow`, `ScanTabletRows`
and `ScanLastShardsWrittenBlock` never return the sentinel itself (their
error, when any, is a wrapped genuine error, or `ErrNotFound` for
`FetchIndex`); and a callback that answers with the sentinel makes
`ScanTabletRows` finish with a nil error. -/
theorem break_scan_never_leaks {σ σ2 : Type} (db : KVBackend) (k1 k2 k3 : GoStr)
    (cb : σ → GoStr → GoStr → σ × Except GoErr Unit) (s0 : σ)
    (cb2 : σ2 → GoStr → GoStr → σ2 × Except GoErr Unit) (t0 : σ2) :
    fetchSingletEntry db k1 k2 ≠ Except.error GoErr.breakScan
    ∧ fetchIndex db k1 k2 k3 ≠ Except.error GoErr.breakScan
    ∧ hasTabletRow db k1 ≠ Except.error GoErr.breakScan
    ∧ (scanTabletRows db k1 k2 cb s0).2 ≠ Except.error GoErr.breakScan
    ∧ (scanLastShardsWrittenBlock db k1 cb2 t0).2 ≠ Except.error GoErr.breakScan
    ∧ ((∀ s k v, (cb s k v).2 = Except.error GoErr.breakScan) → db.scanErr = none →
        (scanTabletRows db k1 k2 cb s0).2 = Except.ok ()) := by
  refine ⟨?_, ?_, ?_, ?_, ?_, ?_⟩
  · unfold fetchSingletEntry
    rcases h : scanRange db TblRows k1 k2 (some 1)
        (fun _ rowKey rowValue => ((rowKey, some rowValue), Except.error GoErr.breakScan))
        (([] : GoStr), (none : Option GoStr)) with ⟨s, r⟩
    have hres := scanRange_result db TblRows k1 k2 (some 1)
      (fun _ rowKey rowValue => ((rowKey, some rowValue), Except.error GoErr.breakScan))
      (([] : GoStr), (none : Option GoStr))
    rw [h] at hres
    simp only at hres
    rcases hres with hr | ⟨m, hr⟩ <;> subst hr <;> simp
  · unfold fetchIndex
    unfold scanInfiniteRange
    rcases h : scanRange db TblIndex k3 [] (some 1)
        (fun s key value =>
          if startsWithB k2 key = false then (s, Except.error GoErr.breakScan)
          else ((key, some value), Except.error GoErr.breakScan))
        (([] : GoStr), (none : Option GoStr)) with ⟨s, r⟩
    have hres := scanRange_result db TblIndex k3 [] (some 1)
      (fun s key value =>
        if startsWithB k2 key = false then (s, Except.error GoErr.breakScan)
        else ((key, some value), Except.error GoErr.breakScan))
      (([] : GoStr), (none : Option GoStr))
    rw [h] at hres
    simp only at hres
    rcases s with ⟨sk, sv⟩
    rcases hres with hr | ⟨m, hr⟩ <;> subst hr <;> cases sv <;> simp
  · unfold hasTabletRow
    rcases h : scanPfx db TblRows k1 (some 1)
        (fun _ _ _ => (true, Except.error GoErr.breakScan)) false with ⟨ex, r⟩
    have hres := scanPfx_result db TblRows k1 (some 1)
      (fun _ _ _ => (true, Except.error GoErr.breakScan)) false
    rw [h] at hres
    simp only at hres
    rcases hres with hr | ⟨m, hr⟩ <;> subst hr <;> simp
  · unfold scanTabletRows
    rcases h : scanRange db TblRows k1 k2 none
        (fun s key value =>
          match cb s key value with
          | (s2, .error .breakScan) => (s2, .error .breakScan)
          | (s2, .error e) =>
            (s2, .error (.err (String.append "on tablet row failed: " (errMsg e))))
          | (s2, .ok ()) => (s2, .ok ())) s0 with ⟨s, r⟩
    have hres := scanRange_result db TblRows k1 k2 none
      (fun s key value =>
        match cb s key value with
        | (s2, .error .breakScan) => (s2, .error .breakScan)
        | (s2, .error e) =>
          (s2, .error (.err (String.append "on tablet row failed: " (errMsg e))))
        | (s2, .ok ()) => (s2, .ok ())) s0
    rw [h] at hres
    simp only at hres
    rcases hres with hr | ⟨m, hr⟩ <;> subst hr <;> simp
  · unfold scanLastShardsWrittenBlock
    rcases h : scanPfx db TblLast k1 none
        (fun s key value =>
          match cb2 s key value with
          | (s2, .error .breakScan) => (s2, .error .breakScan)
          | (s2, .error e) =>
            (s2, .error (.err (String.append "on block ref failed: " (errMsg e))))
          | (s2, .ok ()) => (s2, .ok ())) t0 with ⟨s, r⟩
    have hres := scanPfx_result db TblLast k1 none
      (fun s key value =>
        match cb2 s key value with
        | (s2, .error .breakScan) => (s2, .error .breakScan)
        | (s2, .error e) =>
          (s2, .error (.err (String.append "on block ref failed: " (errMsg e))))
        | (s2, .ok ()) => (s2, .ok ())) t0
    rw [h] at hres
    simp only at hres
    rcases hres with hr | ⟨m, hr⟩ <;> subst hr <;> simp
  · intro hcb hse
    unfold scanTabletRows
    have hwb : ∀ (s : σ) (k v : GoStr),
        ((fun s key value =>
          match cb s key value with
          | (s2, Except.error GoErr.breakScan) => (s2, Except.error GoErr.breakScan)
          | (s2, Except.error e) =>
            (s2, Except.error (GoErr.err (String.append "on tablet row failed: " (errMsg e))))
          | (s2, Except.ok ()) => (s2, Except.ok ())) s k v :
            σ × Except GoErr Unit).2 = Except.error GoErr.breakScan := by
      intro s k v
      show (match cb s k v with
        | (s2, Except.error GoErr.breakScan) => (s2, Except.error GoErr.breakScan)
        | (s2, Except.error e) =>
          (s2, Except.error (GoErr.err (String.append "on tablet row failed: " (errMsg e))))
        | (s2, Except.ok ()) => (s2, Except.ok ())).2 = Except.error GoErr.breakScan
      rcases hc : cb s k v with ⟨s2, r⟩
      have hcr := hcb s k v
      rw [hc] at hcr
      simp only at hcr
      subst hcr
      rfl
    rcases h : scanRange db TblRows k1 k2 none
        (fun s key value =>
          match cb s key value with
          | (s2, .error .breakScan) => (s2, .error .breakScan)
          | (s2, .error e) =>
            (s2, .error (.err (String.append "on tablet row failed: " (errMsg e))))
          | (s2, .ok ()) => (s2, .ok ())) s0 with ⟨s, r⟩
    have hok := scanRange_break_all db TblRows k1 k2 none
      (fun s key value =>
        match cb s key value with
        | (s2, .error .breakScan) => (s2, .error .breakScan)
        | (s2, .error e) =>
          (s2, .error (.err (String.append "on tablet row failed: " (errMsg e))))
        | (s2, .ok ()) => (s2, .ok ())) s0 hwb hse
    rw [h] at hok
    simp only at hok
    subst hok
    rfl

/-- Witness for C8: a concrete one-row backend with an always-`BreakScan`
callback; `ScanTabletRows` ends with a nil error, through the theorem. -/
theorem break_scan_never_leaks_w :
    (scanTabletRows { rows := [([0, 5], [7])], scanErr := none } [5] []
        (fun (_ : Unit) _ _ => ((), Except.error GoErr.breakScan)) ()).2 = Except.ok () :=
  (break_scan_never_leaks { rows := [([0, 5], [7])], scanErr := none } [5] [] []
    (fun (_ : Unit) _ _ => ((), Except.error GoErr.breakScan)) ()
    (fun (_ : Unit) _ _ => ((), Except.ok ())) ()).2.2.2.2.2 (fun _ _ _ => rfl) rfl

theorem fetchKeysLoop_trace_sub {σ : Type}
    (onRow : σ → GoStr → GoStr → σ × Except GoErr Unit)
    (items : List (GoStr × Option GoStr)) (s : σ) :
    ∀ p ∈ (fetchKeysLoop onRow s items).2.1,
      ∃ k, (k, some p.2) ∈ items ∧ p.1 = (unpackKey k).2 := by
  induction items generalizing s with
  | nil => intro p hp; exact absurd hp (by simp [fetchKeysLoop])
  | cons item rest ih =>
    rcases item with ⟨k, v⟩
    cases v with
    | none =>
      intro p hp
      have hp2 : p ∈ (fetchKeysLoop onRow s rest).2.1 := hp
      obtain ⟨k2, hk2, he⟩ := ih s p hp2
      exact ⟨k2, List.mem_cons_of_mem _ hk2, he⟩
    | some v =>
      intro p hp
      have hp2 : p ∈ (match onRow s (unpackKey k).2 v with
        | (s2, Except.error GoErr.breakScan) => (s2, [((unpackKey k).2, v)], LoopEnd.broke)
        | (s2, Except.error e) =>
          (s2, [((unpackKey k).2, v)],
            LoopEnd.failed (GoErr.err (String.append "on tablet row failed: " (errMsg e))))
        | (s2, Except.ok ()) =>
          match fetchKeysLoop onRow s2 rest with
          | (s3, tr, outc) => (s3, ((unpackKey k).2, v) :: tr, outc)).2.1 := hp
      rcases hc : onRow s (unpackKey k).2 v with ⟨s2, r⟩
      rw [hc] at hp2
      cases r with
      | error e =>
        cases e with
        | breakScan =>
          simp only [List.mem_singleton] at hp2
          subst hp2
          exact ⟨k, by simp, rfl⟩
        | notFound =>
          simp only [List.mem_singleton] at hp2
          subst hp2
          exact ⟨k, by simp, rfl⟩
        | err m =>
          simp only [List.mem_singleton] at hp2
          subst hp2
          exact ⟨k, by simp, rfl⟩
      | ok u =>
        cases u
        rcases hrec : fetchKeysLoop onRow s2 rest with ⟨s3, tr, outc⟩
        have hp3 : p ∈ (match fetchKeysLoop onRow s2 rest with
          | (s3, tr, outc) => (s3, ((unpackKey k).2, v) :: tr, outc)).2.1 := hp2
        rw [hrec] at hp3
        have hp4 : p ∈ ((unpackKey k).2, v) :: tr := hp3
        rcases List.mem_cons.mp hp4 with hp5 | hp5
        · subst hp5
          exact ⟨k, by simp, rfl⟩
        · obtain ⟨k2, hk2, he⟩ := ih s2 p (by rw [hrec]; exact hp5)
          exact ⟨k2, List.mem_cons_of_mem _ hk2, he⟩

theorem fetchKeysLoop_ok_trace {σ : Type}
    (onRow : σ → GoStr → GoStr → σ × Except GoErr Unit)
    (hok : ∀ s k v, (onRow s k v).2 = Except.ok ())
    (items : List (GoStr × Option GoStr)) (s : σ) :
    (fetchKeysLoop onRow s items).2.1
      = items.filterMap (fun kv => kv.2.map (fun v => ((unpackKey kv.1).2, v))) := by
  induction items generalizing s with
  | nil => rfl
  | cons item rest ih =>
    rcases item with ⟨k, v⟩
    cases v with
    | none =>
      show (fetchKeysLoop onRow s rest).2.1 = _
      rw [ih s]
      simp [List.filterMap_cons]
    | some v =>
      show (match onRow s (unpackKey k).2 v with
        | (s2, Except.error GoErr.breakScan) => (s2, [((unpackKey k).2, v)], LoopEnd.broke)
        | (s2, Except.error e) =>
          (s2, [((unpackKey k).2, v)],
            LoopEnd.failed (GoErr.err (String.append "on tablet row failed: " (errMsg e))))
        | (s2, Except.ok ()) =>
          match fetchKeysLoop onRow s2 rest with
          | (s3, tr, outc) => (s3, ((unpackKey k).2, v) :: tr, outc)).2.1 = _
      rcases hc : onRow s (unpackKey k).2 v with ⟨s2, r⟩
      have hcr := hok s (unpackKey k).2 v
      rw [hc] at hcr
      simp only at hcr
      subst hcr
      rcases hrec : fetchKeysLoop onRow s2 rest with ⟨s3, tr, outc⟩
      have ih2 := ih s2
      rw [hrec] at ih2
      simp only at ih2
      show (match fetchKeysLoop onRow s2 rest with
        | (s3, tr, outc) => (s3, ((unpackKey k).2, v) :: tr, outc)).2.1 = _
      rw [hrec]
      show ((unpackKey k).2, v) :: tr = _
      rw [ih2]
      simp [List.filterMap_cons]

theorem fetchKeys_trace_eq {σ : Type} (items : List (GoStr × Option GoStr))
    (itrErr : Option String) (onRow : σ → GoStr → GoStr → σ × Except GoErr Unit) (s0 : σ) :
    (fetchKeys items itrErr onRow s0).2.1 = (fetchKeysLoop onRow s0 items).2.1 := by
  unfold fetchKeys
  rcases hl : fetchKeysLoop onRow s0 items with ⟨s, tr, outc⟩
  cases outc with
  | completed =>
    cases itrErr <;> rfl
  | broke => rfl
  | failed e => rfl

/-- Claim C9: in the `BatchGet` path (`fetchKeys`, used by
`FetchTabletRows`), the per-row callback is invoked only for items whose
fetched value is non-nil — every pair in the invocation trace comes from an
item with a present value — and, when the callback never aborts, the trace
is exactly the present-valued items in order, so a present-but-empty value
(`some []`) IS passed to the callback while a missing key (`none`) is
silently skipped: absence and emptiness are distinguished. -/
theorem fetchKeys_nil_skipped {σ : Type} (items : List (GoStr × Option GoStr))
    (itrErr : Option String) (onRow : σ → GoStr → GoStr → σ × Except GoErr Unit) (s0 : σ) :
    (∀ p ∈ (fetchKeys items itrErr onRow s0).2.1,
      ∃ k, (k, some p.2) ∈ items ∧ p.1 = (unpackKey k).2)
    ∧ ((∀ s k v, (onRow s k v).2 = Except.ok ()) →
        (fetchKeys items itrErr onRow s0).2.1
          = items.filterMap (fun kv => kv.2.map (fun v => ((unpackKey kv.1).2, v)))) := by
  constructor
  · intro p hp
    rw [fetchKeys_trace_eq] at hp
    exact fetchKeysLoop_trace_sub onRow items s0 p hp
  · intro hok
    rw [fetchKeys_trace_eq]
    exact fetchKeysLoop_ok_trace onRow hok items s0

/-- Witness for C9 at a concrete input: of two fetched items, the `none`
value (missing key) is skipped and the `some []` value (present but empty)
reaches the callback, so the trace is exactly the second item. -/
theorem fetchKeys_nil_skipped_w :
    (fetchKeys [([0, 1], none), ([0, 2], some ([] : GoStr))] none
        (fun (_ : Unit) _ _ => ((), Except.ok ())) ()).2.1 = [([0, 2], [])] :=
  ((fetchKeys_nil_skipped [([0, 1], none), ([0, 2], some ([] : GoStr))] none
    (fun (_ : Unit) _ _ => ((), Except.ok ())) ()).2 (fun _ _ _ => rfl)).trans rfl

/-! ## Helper lemmas for the singlet read -/

theorem ltB_cons_same (c : Nat) (x y : GoStr) : ltB (c :: x) (c :: y) = ltB x y := by
  show (if c < c then true else if c < c then false else ltB x y) = ltB x y
  simp

theorem ltB_append_last (p : GoStr) (a b : Nat) :
    ltB (p ++ [a]) (p ++ [b]) = decide (a < b) := by
  induction p with
  | nil =>
    show ltB [a] [b] = decide (a < b)
    by_cases hab : a < b
    · simp [ltB, hab]
    · by_cases hba : b < a
      · simp [ltB, hab, hba]
      · simp [ltB, hab, hba]
  | cons c p ih =>
    show ltB (c :: (p ++ [a])) (c :: (p ++ [b])) = decide (a < b)
    rw [ltB_cons_same, ih]

theorem leB_append_last (p : GoStr) (a b : Nat) :
    leB (p ++ [a]) (p ++ [b]) = decide (a ≤ b) := by
  show (!(ltB (p ++ [b]) (p ++ [a]))) = decide (a ≤ b)
  rw [ltB_append_last, ← decide_not]
  exact decide_eq_decide.mpr Nat.not_lt

theorem singletDB_scan (sKey : GoStr) (vs : List (Nat × GoStr)) (h : Nat)
    (hh : h ≤ MAXH) (hvs : ∀ v ∈ vs, v.1 ≤ MAXH) :
    kvScan (singletDB sKey vs).rows (packKey TblRows (sKey ++ [MAXH - h]))
      (if (sKey ++ [MAXH + 1] : GoStr) = [] then [TblRows + 1]
        else packKey TblRows (sKey ++ [MAXH + 1])) (some 1)
    = ((vs.filter (fun v => decide (v.1 ≤ h))).reverse.map
        (fun v => (packKey TblRows (sKey ++ [MAXH - v.1]), v.2))).take 1 := by
  have hne : (sKey ++ [MAXH + 1] : GoStr) ≠ [] := by simp
  rw [if_neg hne]
  show (((vs.map (fun v => (packKey TblRows (sKey ++ [MAXH - v.1]), v.2))).reverse).filter
      (fun kv => leB (packKey TblRows (sKey ++ [MAXH - h])) kv.1
        && ltB kv.1 (packKey TblRows (sKey ++ [MAXH + 1])))).take 1 = _
  rw [List.filter_reverse, List.filter_map]
  have hcong : vs.filter ((fun kv => leB (packKey TblRows (sKey ++ [MAXH - h])) kv.1
        && ltB kv.1 (packKey TblRows (sKey ++ [MAXH + 1])))
        ∘ (fun v => (packKey TblRows (sKey ++ [MAXH - v.1]), v.2)))
      = vs.filter (fun v => decide (v.1 ≤ h)) := by
    refine List.filter_congr ?_
    intro x hx
    have hx1 : x.1 ≤ MAXH := hvs x hx
    show (leB ((TblRows :: sKey) ++ [MAXH - h]) ((TblRows :: sKey) ++ [MAXH - x.1])
      && ltB ((TblRows :: sKey) ++ [MAXH - x.1]) ((TblRows :: sKey) ++ [MAXH + 1]))
        = decide (x.1 ≤ h)
    rw [leB_append_last, ltB_append_last]
    have e1 : (MAXH - h ≤ MAXH - x.1) ↔ x.1 ≤ h := by omega
    have h1 : MAXH - x.1 < MAXH + 1 := by omega
    rw [decide_eq_decide.mpr e1, decide_eq_true h1, Bool.and_true]
  rw [hcong, List.map_reverse]

theorem fetchSingletEntry_scan_nil (db : KVBackend) (ks ke : GoStr)
    (hse : db.scanErr = none)
    (hscan : kvScan db.rows (packKey TblRows ks)
      (if ke = [] then [TblRows + 1] else packKey TblRows ke) (some 1) = []) :
    fetchSingletEntry db ks ke = .ok ([], none) := by
  unfold fetchSingletEntry scanRange
  rw [hscan, hse]
  rfl

theorem fetchSingletEntry_scan_cons (db : KVBackend) (ks ke : GoStr)
    (item : GoStr × GoStr) (rest : List (GoStr × GoStr))
    (hscan : kvScan db.rows (packKey TblRows ks)
      (if ke = [] then [TblRows + 1] else packKey TblRows ke) (some 1) = item :: rest) :
    fetchSingletEntry db ks ke = .ok ((unpackKey item.1).2, some item.2) := by
  unfold fetchSingletEntry scanRange
  rw [hscan]
  rfl

theorem readSingletAt_eq_getLast (sKey : GoStr) (vs : List (Nat × GoStr)) (h : Nat)
    (hh : h ≤ MAXH) (hvs : ∀ v ∈ vs, v.1 ≤ MAXH) :
    readSingletAt sKey vs h = (vs.filter (fun v => decide (v.1 ≤ h))).getLast? := by
  have hscan := singletDB_scan sKey vs h hh hvs
  cases hrev : (vs.filter (fun v => decide (v.1 ≤ h))).reverse with
  | nil =>
    rw [hrev] at hscan
    have hscan2 : kvScan (singletDB sKey vs).rows (packKey TblRows (sKey ++ [MAXH - h]))
        (if (sKey ++ [MAXH + 1] : GoStr) = [] then [TblRows + 1]
          else packKey TblRows (sKey ++ [MAXH + 1])) (some 1) = [] := hscan.trans rfl
    unfold readSingletAt
    rw [fetchSingletEntry_scan_nil (singletDB sKey vs) _ _ rfl hscan2]
    rw [← List.head?_reverse, hrev]
    rfl
  | cons w tl =>
    have hw : w ∈ vs := by
      have hmem : w ∈ (vs.filter (fun v => decide (v.1 ≤ h))).reverse := by
        rw [hrev]
        simp
      exact List.mem_of_mem_filter (List.mem_reverse.mp hmem)
    have hwle : w.1 ≤ MAXH := hvs w hw
    rw [hrev] at hscan
    have hscan2 : kvScan (singletDB sKey vs).rows (packKey TblRows (sKey ++ [MAXH - h]))
        (if (sKey ++ [MAXH + 1] : GoStr) = [] then [TblRows + 1]
          else packKey TblRows (sKey ++ [MAXH + 1])) (some 1)
        = (packKey TblRows (sKey ++ [MAXH - w.1]), w.2)
          :: ([] : List (GoStr × GoStr)) := hscan.trans rfl
    unfold readSingletAt
    rw [fetchSingletEntry_scan_cons (singletDB sKey vs) _ _ _ _ hscan2]
    show some (MAXH - (packKey TblRows (sKey ++ [MAXH - w.1]) : GoStr).getLastD 0, w.2) = _
    have hlast : (packKey TblRows (sKey ++ [MAXH - w.1]) : GoStr).getLastD 0 = MAXH - w.1 := by
      show ((TblRows :: sKey) ++ [MAXH - w.1] : GoStr).getLastD 0 = MAXH - w.1
      exact List.getLastD_concat _ _ _
    rw [hlast]
    have hsub : MAXH - (MAXH - w.1) = w.1 := by omega
    rw [hsub, ← List.head?_reverse, hrev]
    rfl

/-- Claim C6 (spec-modelled read path over the source `FetchSingletEntry`):
for a singlet with versions at strictly increasing heights, reading at
height `h` is absent when `h` is below every version height, and returns
the version at `hi` whenever `hi ≤ h` and every later version is above `h`
(which covers both `hi ≤ h < h(i+1)` and `h ≥ hn`); the persisted candidate
is the first hit of the single forward limit-1 scan from the encoded query
height. -/
theorem singlet_read_version_intervals (sKey : GoStr) (vs : List (Nat × GoStr)) (h : Nat)
    (hh : h ≤ MAXH) (hvs : ∀ v ∈ vs, v.1 ≤ MAXH)
    (hsorted : vs.Pairwise (fun a b => a.1 < b.1)) :
    ((∀ v ∈ vs, h < v.1) → readSingletAt sKey vs h = none)
    ∧ (∀ (pre : List (Nat × GoStr)) (v : Nat × GoStr) (post : List (Nat × GoStr)),
        vs = pre ++ v :: post → v.1 ≤ h → (∀ w ∈ post, h < w.1) →
        readSingletAt sKey vs h = some v) := by
  have hchar := readSingletAt_eq_getLast sKey vs h hh hvs
  constructor
  · intro hall
    rw [hchar]
    have hnil : vs.filter (fun v => decide (v.1 ≤ h)) = [] := by
      rw [List.filter_eq_nil_iff]
      intro v hv
      simp [Nat.not_le.mpr (hall v hv)]
    rw [hnil]
    rfl
  · intro pre v post hsplit hle hpost
    rw [hchar, hsplit, List.filter_append]
    have hpostnil : post.filter (fun w => decide (w.1 ≤ h)) = [] := by
      rw [List.filter_eq_nil_iff]
      intro w hw
      simp [Nat.not_le.mpr (hpost w hw)]
    have hcons : (v :: post).filter (fun w => decide (w.1 ≤ h)) = [v] := by
      rw [List.filter_cons_of_pos (by simp [hle]), hpostnil]
    rw [hcons]
    exact List.getLast?_concat _

/-- Witness for C6 at the concrete scenario of the spec: versions at
heights 3 and 5, read at height 4 returns the height-3 version. -/
theorem singlet_read_version_intervals_w :
    readSingletAt [10] [(3, [97]), (5, [98])] 4 = some (3, [97]) :=
  (singlet_read_version_intervals [10] [(3, [97]), (5, [98])] 4 (by decide) (by decide)
    (by decide)).2 [] (3, [97]) [(5, [98])] rfl (by decide) (by decide)
